import Mathlib

/-!
Shallow embedding of the `solana-subscription` program (create_subscription,
pay_subscription, withdraw_funds) together with proofs about the claims on its
specification.

Machine integers are modelled as `Nat`/`Int` with explicit reduction modulo
`2^64` where the Rust release-mode arithmetic wraps.  The 32-bit float
arithmetic used by `withdraw_funds` (share / 100.0, total_paid as f32,
f32 multiplication, as u64) is modelled exactly over `ℚ` with
round-to-nearest, ties-to-even at 24 bits of precision.
-/

namespace SolSub

/-! ## A structurally recursive base-2 logarithm (kernel-reducible) -/

/-- Fuelled floor-log2: `log2fuel fuel n` equals `Nat.log 2 n` whenever
`n ≤ fuel`.  Structural recursion on the fuel so that `decide` can
evaluate it. -/
def log2fuel : Nat → Nat → Nat
  | 0, _ => 0
  | fuel + 1, n => if 2 ≤ n then log2fuel fuel (n / 2) + 1 else 0

/-- Floor of the base-2 logarithm of a positive natural number. -/
def nlog2 (n : Nat) : Nat := log2fuel n n

theorem log2fuel_spec (fuel : Nat) : ∀ n : Nat, n ≤ fuel → 1 ≤ n →
    2 ^ log2fuel fuel n ≤ n ∧ n < 2 ^ (log2fuel fuel n + 1) := by
  induction fuel with
  | zero => intro n hle h1; omega
  | succ fuel ih =>
    intro n hle h1
    by_cases h2 : 2 ≤ n
    · have hrec := ih (n / 2) (by omega) (by omega)
      simp only [log2fuel, if_pos h2]
      have hp1 : 2 ^ (log2fuel fuel (n / 2) + 1) = 2 * 2 ^ log2fuel fuel (n / 2) := by
        ring
      have hp2 : 2 ^ (log2fuel fuel (n / 2) + 1 + 1) = 2 * 2 ^ (log2fuel fuel (n / 2) + 1) := by
        ring
      omega
    · simp only [log2fuel, if_neg h2]
      omega

theorem nlog2_spec {n : Nat} (h1 : 1 ≤ n) :
    2 ^ nlog2 n ≤ n ∧ n < 2 ^ (nlog2 n + 1) :=
  log2fuel_spec n n le_rfl h1

/-! ## Integer powers of two over ℚ -/

/-- `pow2z e = (2 : ℚ) ^ e`, written with natural-number powers so that the
kernel can evaluate it. -/
def pow2z (e : Int) : ℚ :=
  if 0 ≤ e then ((2 : ℚ) ^ e.toNat) else ((2 : ℚ) ^ (-e).toNat)⁻¹

theorem pow2z_eq_zpow (e : Int) : pow2z e = (2 : ℚ) ^ e := by
  unfold pow2z
  by_cases h : 0 ≤ e
  · rw [if_pos h]
    rw [← zpow_natCast]
    congr 1
    omega
  · rw [if_neg h]
    rw [← zpow_natCast, ← zpow_neg]
    congr 1
    omega

theorem pow2z_pos (e : Int) : 0 < pow2z e := by
  rw [pow2z_eq_zpow]
  exact zpow_pos (by norm_num) e

theorem pow2z_mono {e f : Int} (h : e ≤ f) : pow2z e ≤ pow2z f := by
  rw [pow2z_eq_zpow, pow2z_eq_zpow]
  exact zpow_le_zpow_right₀ (by norm_num) h

theorem pow2z_add (e f : Int) : pow2z (e + f) = pow2z e * pow2z f := by
  rw [pow2z_eq_zpow, pow2z_eq_zpow, pow2z_eq_zpow]
  exact zpow_add₀ (by norm_num) e f

theorem pow2z_zero : pow2z 0 = 1 := by
  unfold pow2z
  norm_num

theorem pow2z_one : pow2z 1 = 2 := by
  unfold pow2z
  norm_num

theorem pow2z_natCast (k : Nat) : pow2z (k : Int) = ((2 ^ k : Nat) : ℚ) := by
  unfold pow2z
  rw [if_pos (by omega)]
  have hT : ((k : Int)).toNat = k := by omega
  rw [hT]
  push_cast
  ring

/-! ## Round to nearest, ties to even -/

/-- Round a rational to the nearest integer, ties to even. -/
def rne (q : ℚ) : Int :=
  if q - ⌊q⌋ < 1 / 2 then ⌊q⌋
  else if 1 / 2 < q - ⌊q⌋ then ⌊q⌋ + 1
  else if 2 ∣ ⌊q⌋ then ⌊q⌋ else ⌊q⌋ + 1

theorem floor_le_rne (q : ℚ) : ⌊q⌋ ≤ rne q := by
  unfold rne; split_ifs <;> omega

theorem rne_le_floor_add_one (q : ℚ) : rne q ≤ ⌊q⌋ + 1 := by
  unfold rne; split_ifs <;> omega

theorem rne_intCast (n : Int) : rne (n : ℚ) = n := by
  unfold rne
  rw [Int.floor_intCast]
  rw [if_pos (by norm_num)]

theorem rne_mono {x y : ℚ} (h : x ≤ y) : rne x ≤ rne y := by
  rcases lt_or_le ⌊x⌋ ⌊y⌋ with hf | hf
  · have h1 := rne_le_floor_add_one x
    have h2 := floor_le_rne y
    omega
  · have hf' : ⌊x⌋ = ⌊y⌋ := le_antisymm (Int.floor_mono h) hf
    have hfr : x - ((⌊y⌋ : Int) : ℚ) ≤ y - ((⌊y⌋ : Int) : ℚ) := by
      linarith
    unfold rne
    rw [hf']
    split_ifs <;> first | omega | (exfalso; linarith)

theorem rne_nonneg {q : ℚ} (h : 0 ≤ q) : 0 ≤ rne q := by
  have h1 : (0 : Int) ≤ ⌊q⌋ := Int.floor_nonneg.mpr h
  have h2 := floor_le_rne q
  omega

/-! ## The f32 model -/

/-- Floor of the base-2 logarithm of a positive rational. -/
def qFloorLog2 (q : ℚ) : Int :=
  if 1 ≤ q then (nlog2 (Int.toNat ⌊q⌋) : Int)
  else
    (if q * pow2z (nlog2 (Int.toNat ⌊q⁻¹⌋)) = 1
      then -(nlog2 (Int.toNat ⌊q⁻¹⌋) : Int)
      else -(nlog2 (Int.toNat ⌊q⁻¹⌋) : Int) - 1)

theorem qFloorLog2_spec {q : ℚ} (hq : 0 < q) :
    pow2z (qFloorLog2 q) ≤ q ∧ q < pow2z (qFloorLog2 q + 1) := by
  unfold qFloorLog2
  by_cases h1 : 1 ≤ q
  · rw [if_pos h1]
    set n : Nat := Int.toNat ⌊q⌋ with hn
    have hfl : (1 : Int) ≤ ⌊q⌋ := Int.le_floor.mpr (by push_cast; exact h1)
    have hn1 : 1 ≤ n := by omega
    obtain ⟨hs1, hs2⟩ := nlog2_spec hn1
    have hni : (n : Int) = ⌊q⌋ := by omega
    have hnq : ((n : Nat) : ℚ) ≤ q := by
      calc ((n : Nat) : ℚ) = ((n : Int) : ℚ) := by push_cast; ring
        _ = ((⌊q⌋ : Int) : ℚ) := by rw [hni]
        _ ≤ q := Int.floor_le q
    constructor
    · rw [pow2z_natCast]
      calc ((2 ^ nlog2 n : Nat) : ℚ) ≤ ((n : Nat) : ℚ) := by exact_mod_cast hs1
        _ ≤ q := hnq
    · have hcast : (nlog2 n : Int) + 1 = ((nlog2 n + 1 : Nat) : Int) := by push_cast; ring
      rw [hcast, pow2z_natCast]
      have hq1 : q < ((⌊q⌋ : Int) : ℚ) + 1 := Int.lt_floor_add_one q
      calc q < ((⌊q⌋ : Int) : ℚ) + 1 := hq1
        _ = ((n : Nat) : ℚ) + 1 := by rw [← hni]; push_cast; ring
        _ ≤ ((2 ^ (nlog2 n + 1) : Nat) : ℚ) := by exact_mod_cast hs2
  · rw [if_neg h1]
    push_neg at h1
    have hqi : 1 < q⁻¹ := (one_lt_inv₀ hq).mpr h1
    set m : Nat := Int.toNat ⌊q⁻¹⌋ with hm
    have hfl : (1 : Int) ≤ ⌊q⁻¹⌋ := Int.le_floor.mpr (by push_cast; exact hqi.le)
    have hm1 : 1 ≤ m := by omega
    obtain ⟨hs1, hs2⟩ := nlog2_spec hm1
    set k : Nat := nlog2 m with hk
    have hmi : (m : Int) = ⌊q⁻¹⌋ := by omega
    -- 2^k ≤ q⁻¹ < 2^(k+1)
    have hlo : ((2 ^ k : Nat) : ℚ) ≤ q⁻¹ := by
      calc ((2 ^ k : Nat) : ℚ) ≤ ((m : Nat) : ℚ) := by exact_mod_cast hs1
        _ = ((m : Int) : ℚ) := by push_cast; ring
        _ = ((⌊q⁻¹⌋ : Int) : ℚ) := by rw [hmi]
        _ ≤ q⁻¹ := Int.floor_le q⁻¹
    have hup : q⁻¹ < ((2 ^ (k + 1) : Nat) : ℚ) := by
      have hq1 : q⁻¹ < ((⌊q⁻¹⌋ : Int) : ℚ) + 1 := Int.lt_floor_add_one q⁻¹
      calc q⁻¹ < ((⌊q⁻¹⌋ : Int) : ℚ) + 1 := hq1
        _ = ((m : Nat) : ℚ) + 1 := by rw [← hmi]; push_cast; ring
        _ ≤ ((2 ^ (k + 1) : Nat) : ℚ) := by exact_mod_cast hs2
    -- q * 2^k ≤ 1 and 1 < q * 2^(k+1)
    have hq2k : q * pow2z (k : Int) ≤ 1 := by
      rw [pow2z_natCast]
      have h2 := mul_le_mul_of_nonneg_left hlo hq.le
      rw [mul_inv_cancel₀ (ne_of_gt hq)] at h2
      exact h2
    have hq2k1 : 1 < q * pow2z ((k : Int) + 1) := by
      have hcast : (k : Int) + 1 = ((k + 1 : Nat) : Int) := by push_cast; ring
      rw [hcast, pow2z_natCast]
      have h2 := mul_lt_mul_of_pos_left hup hq
      rw [mul_inv_cancel₀ (ne_of_gt hq)] at h2
      exact h2
    have hcancel : pow2z (-(k : Int)) * pow2z (k : Int) = 1 := by
      rw [← pow2z_add, neg_add_cancel, pow2z_zero]
    by_cases heq : q * pow2z (k : Int) = 1
    · rw [if_pos heq]
      have hqeq : q = pow2z (-(k : Int)) := by
        have h2 : pow2z (-(k : Int)) * (q * pow2z (k : Int))
            = q * (pow2z (-(k : Int)) * pow2z (k : Int)) := by ring
        rw [heq, mul_one, hcancel, mul_one] at h2
        exact h2.symm
      constructor
      · rw [hqeq]
      · rw [hqeq, pow2z_add, pow2z_one]
        have := pow2z_pos (-(k : Int))
        linarith
    · rw [if_neg heq]
      have hqlt : q * pow2z (k : Int) < 1 := lt_of_le_of_ne hq2k heq
      constructor
      · have h3 : pow2z (-(k : Int) - 1) * 1
            ≤ pow2z (-(k : Int) - 1) * (q * pow2z ((k : Int) + 1)) :=
          mul_le_mul_of_nonneg_left hq2k1.le (pow2z_pos _).le
        have h4 : pow2z (-(k : Int) - 1) * (q * pow2z ((k : Int) + 1)) = q := by
          rw [show pow2z (-(k : Int) - 1) * (q * pow2z ((k : Int) + 1))
              = q * (pow2z (-(k : Int) - 1) * pow2z ((k : Int) + 1)) by ring]
          rw [← pow2z_add, show -(k : Int) - 1 + ((k : Int) + 1) = 0 by ring,
            pow2z_zero, mul_one]
        rw [mul_one, h4] at h3
        exact h3
      · have h5 : q * pow2z (k : Int) * pow2z (-(k : Int)) < 1 * pow2z (-(k : Int)) :=
          mul_lt_mul_of_pos_right hqlt (pow2z_pos _)
        have h6 : q * pow2z (k : Int) * pow2z (-(k : Int)) = q := by
          rw [mul_assoc, ← pow2z_add, show (k : Int) + -(k : Int) = 0 by ring,
            pow2z_zero, mul_one]
        rw [h6, one_mul] at h5
        rw [show -(k : Int) - 1 + 1 = -(k : Int) by ring]
        exact h5

theorem qFloorLog2_mono {x y : ℚ} (hx : 0 < x) (h : x ≤ y) :
    qFloorLog2 x ≤ qFloorLog2 y := by
  by_contra hlt
  push_neg at hlt
  have hy : 0 < y := lt_of_lt_of_le hx h
  obtain ⟨hx1, hx2⟩ := qFloorLog2_spec hx
  obtain ⟨hy1, hy2⟩ := qFloorLog2_spec hy
  have h1 : qFloorLog2 y + 1 ≤ qFloorLog2 x := by omega
  have := pow2z_mono h1
  linarith

/-- The value an IEEE-754 binary32 (f32) register holds after rounding the
real number `q`: round to nearest, ties to even, with a 24-bit significand.
(The program only ever feeds it values far away from the subnormal and
overflow ranges, so those regimes are not reached.)  Nonpositive inputs map
to zero, matching the nonnegative quantities used by the program. -/
def f32round (q : ℚ) : ℚ :=
  if 0 < q then
    ((rne (q / pow2z (qFloorLog2 q - 23)) : Int) : ℚ) * pow2z (qFloorLog2 q - 23)
  else 0

theorem f32round_nonneg (q : ℚ) : 0 ≤ f32round q := by
  unfold f32round
  split_ifs with h
  · have hdiv : 0 ≤ q / pow2z (qFloorLog2 q - 23) := by
      have := pow2z_pos (qFloorLog2 q - 23)
      positivity
    have hr : (0 : ℚ) ≤ ((rne (q / pow2z (qFloorLog2 q - 23)) : Int) : ℚ) := by
      exact_mod_cast rne_nonneg hdiv
    exact mul_nonneg hr (pow2z_pos _).le
  · exact le_refl 0

theorem f32round_of_nonpos {q : ℚ} (h : q ≤ 0) : f32round q = 0 := by
  unfold f32round
  rw [if_neg (by linarith)]

theorem rne_le_of_le_intCast {q : ℚ} {n : Int} (h : q ≤ (n : ℚ)) : rne q ≤ n := by
  have h2 := rne_mono h
  rwa [rne_intCast] at h2

theorem intCast_le_rne {q : ℚ} {n : Int} (h : (n : ℚ) ≤ q) : n ≤ rne q := by
  have h2 := rne_mono h
  rwa [rne_intCast] at h2

theorem f32round_le_pow2z_succ {q : ℚ} (hq : 0 < q) :
    f32round q ≤ pow2z (qFloorLog2 q + 1) := by
  obtain ⟨hlo, hup⟩ := qFloorLog2_spec hq
  unfold f32round
  rw [if_pos hq]
  set E : Int := qFloorLog2 q - 23 with hE
  have hp := pow2z_pos E
  have hsplit : pow2z (qFloorLog2 q + 1) = ((2 ^ 24 : Int) : ℚ) * pow2z E := by
    rw [show qFloorLog2 q + 1 = (24 : Int) + E by omega, pow2z_add]
    congr 1
  have hdiv : q / pow2z E ≤ ((2 ^ 24 : Int) : ℚ) := by
    rw [div_le_iff₀ hp]
    rw [hsplit] at hup
    exact hup.le
  have hr := rne_le_of_le_intCast hdiv
  have hr' : ((rne (q / pow2z E) : Int) : ℚ) ≤ ((2 ^ 24 : Int) : ℚ) := by
    exact_mod_cast hr
  rw [hsplit]
  exact mul_le_mul_of_nonneg_right hr' hp.le

theorem pow2z_le_f32round {q : ℚ} (hq : 0 < q) :
    pow2z (qFloorLog2 q) ≤ f32round q := by
  obtain ⟨hlo, hup⟩ := qFloorLog2_spec hq
  unfold f32round
  rw [if_pos hq]
  set E : Int := qFloorLog2 q - 23 with hE
  have hp := pow2z_pos E
  have hsplit : pow2z (qFloorLog2 q) = ((2 ^ 23 : Int) : ℚ) * pow2z E := by
    rw [show qFloorLog2 q = (23 : Int) + E by omega, pow2z_add]
    congr 1
  have hdiv : ((2 ^ 23 : Int) : ℚ) ≤ q / pow2z E := by
    rw [le_div_iff₀ hp]
    rw [hsplit] at hlo
    exact hlo
  have hr := intCast_le_rne hdiv
  have hr' : ((2 ^ 23 : Int) : ℚ) ≤ ((rne (q / pow2z E) : Int) : ℚ) := by
    exact_mod_cast hr
  rw [hsplit]
  exact mul_le_mul_of_nonneg_right hr' hp.le

theorem f32round_mono {x y : ℚ} (hx : 0 ≤ x) (hxy : x ≤ y) :
    f32round x ≤ f32round y := by
  rcases eq_or_lt_of_le hx with h0 | h0
  · rw [f32round_of_nonpos (le_of_eq h0.symm)]
    exact f32round_nonneg y
  · have hy : 0 < y := lt_of_lt_of_le h0 hxy
    have he := qFloorLog2_mono h0 hxy
    rcases eq_or_lt_of_le he with heq | hlt
    · unfold f32round
      rw [if_pos h0, if_pos hy, ← heq]
      set E : Int := qFloorLog2 x - 23 with hE
      have hp := pow2z_pos E
      have hdivle : x / pow2z E ≤ y / pow2z E := by
        rw [div_eq_mul_inv, div_eq_mul_inv]
        exact mul_le_mul_of_nonneg_right hxy (inv_nonneg.mpr hp.le)
      have hr := rne_mono hdivle
      have hr' : ((rne (x / pow2z E) : Int) : ℚ) ≤ ((rne (y / pow2z E) : Int) : ℚ) := by
        exact_mod_cast hr
      exact mul_le_mul_of_nonneg_right hr' hp.le
    · calc f32round x ≤ pow2z (qFloorLog2 x + 1) := f32round_le_pow2z_succ h0
        _ ≤ pow2z (qFloorLog2 y) := pow2z_mono (by omega)
        _ ≤ f32round y := pow2z_le_f32round hy

end SolSub

namespace SolSub

/-! ## Machine-integer helpers (u64 and i64 in release mode wrap) -/

/-- `2 ^ 64`, the modulus of `u64` arithmetic. -/
def U64CAP : Nat := 2 ^ 64

/-- Wrapping `u64` addition result. -/
def wrapU64 (n : Nat) : Nat := n % U64CAP

/-- Wrapping `u64` subtraction `a - b` for `a b < 2^64` (release-mode Rust). -/
def wsubU64 (a b : Nat) : Nat := (a + U64CAP - b) % U64CAP

/-- `u64 → i64` cast (`as i64`): reinterpret the bits in two's complement. -/
def i64ofU64 (n : Nat) : Int := if n < 2 ^ 63 then (n : Int) else (n : Int) - 2 ^ 64

/-- Wrap an integer into the `i64` range (release-mode `+` on `i64`). -/
def wrapI64 (z : Int) : Int := (z + 2 ^ 63) % 2 ^ 64 - 2 ^ 63

/-- `as u64` applied to a nonnegative f32 value: truncate toward zero,
saturating at `u64::MAX`. -/
def asU64sat (q : ℚ) : Nat := min (Int.toNat ⌊q⌋) (U64CAP - 1)

/-- The ℚ-level statement of the entitlement `withdraw_funds` computes:
`(total_paid as f32 * (f32::from(share) / 100.0)) as u64`. -/
def entitlementQ (total_paid share : Nat) : Nat :=
  asU64sat (f32round (f32round (total_paid : ℚ) * f32round ((share : ℚ) / 100)))

/-- Modelled from the spec's words (not from the source): the entitlement as
the specification states it, `floor(total_paid * share / 100)` in exact
integer arithmetic. -/
def specEntitlementFloor (total_paid share : Nat) : Nat := total_paid * share / 100

end SolSub

namespace SolSub

/-! ## Executable mirror of the f32 computation (pure Nat/Int arithmetic)

The ℚ-level functions above do not reduce during elaboration, so the
following integer-level versions are used for concrete evaluation; they are
proved equal to the ℚ-level semantics below. -/

/-- Round-to-nearest-even of the fraction `num / den` (`den > 0`). -/
def rneFrac (num den : Nat) : Nat :=
  if 2 * (num % den) < den then num / den
  else if den < 2 * (num % den) then num / den + 1
  else if num / den % 2 = 0 then num / den else num / den + 1

/-- Floor of the base-2 logarithm of the fraction `a / b` (`a, b > 0`). -/
def flog2Frac (a b : Nat) : Int :=
  if b ≤ a then (nlog2 (a / b) : Int)
  else
    (if a * 2 ^ nlog2 (b / a) = b
      then -(nlog2 (b / a) : Int)
      else -(nlog2 (b / a) : Int) - 1)

/-- An exactly-represented f32 value `m * 2 ^ e`. -/
structure F32 where
  m : Nat
  e : Int
  deriving Repr, DecidableEq

/-- The rational value of an `F32`. -/
def F32.toRat (x : F32) : ℚ := (x.m : ℚ) * pow2z x.e

/-- The f32 nearest to `a / b` (`b > 0`): the result of rounding the
fraction to 24 significant bits, round to nearest, ties to even. -/
def f32ofFrac (a b : Nat) : F32 :=
  if a = 0 then ⟨0, 0⟩
  else
    { m :=
        (if 0 ≤ flog2Frac a b - 23
          then rneFrac a (b * 2 ^ (flog2Frac a b - 23).toNat)
          else rneFrac (a * 2 ^ (-(flog2Frac a b - 23)).toNat) b),
      e := flog2Frac a b - 23 }

/-- Correctly rounded f32 multiplication of exactly-held operands. -/
def f32mul (x y : F32) : F32 :=
  if 0 ≤ x.e + y.e then f32ofFrac (x.m * y.m * 2 ^ (x.e + y.e).toNat) 1
  else f32ofFrac (x.m * y.m) (2 ^ (-(x.e + y.e)).toNat)

/-- `as u64` on a nonnegative f32 value: truncate, saturating at `u64::MAX`. -/
def f32toU64 (x : F32) : Nat :=
  min (if 0 ≤ x.e then x.m * 2 ^ x.e.toNat else x.m / 2 ^ (-x.e).toNat)
    (U64CAP - 1)

/-- The amount `withdraw_funds` computes as `max_absolute_share as u64`:
`(subscription.total_paid as f32 * (f32::from(share) / 100.0)) as u64`. -/
def codeEntitlement (total_paid share : Nat) : Nat :=
  f32toU64 (f32mul (f32ofFrac total_paid 1) (f32ofFrac share 100))

example : codeEntitlement 16777219 100 = 16777220 := by decide
example : specEntitlementFloor 16777219 100 = 16777219 := by decide
example : codeEntitlement 1000 20 = 200 := by decide
example : codeEntitlement 2000 20 = 400 := by decide
example : codeEntitlement 500 100 = 500 := by decide
example : codeEntitlement 0 100 = 0 := by decide
example : codeEntitlement 1000 0 = 0 := by decide

end SolSub

namespace SolSub

/-! ## Bridge: the executable mirror agrees with the ℚ-level f32 semantics -/

theorem floor_natCast_div (a b : Nat) :
    ⌊(a : ℚ) / (b : ℚ)⌋ = ((a / b : Nat) : Int) := by
  have h := Rat.floor_intCast_div_natCast (a : Int) b
  have hcast : (((a : Int) : ℚ)) = (a : ℚ) := by push_cast; ring
  rw [hcast] at h
  rw [h]
  omega

theorem pow2z_of_nonneg {e : Int} (h : 0 ≤ e) :
    pow2z e = ((2 ^ e.toNat : Nat) : ℚ) := by
  rw [pow2z, if_pos h]
  push_cast
  ring

theorem pow2z_of_neg {e : Int} (h : e < 0) :
    pow2z e = (((2 ^ (-e).toNat : Nat) : ℚ))⁻¹ := by
  rw [pow2z, if_neg (by omega)]
  push_cast
  ring_nf

theorem rneFrac_eq {num den : Nat} (hd : 0 < den) :
    (rneFrac num den : Int) = rne ((num : ℚ) / (den : ℚ)) := by
  set q : ℚ := (num : ℚ) / (den : ℚ) with hqdef
  have hdq : (0:ℚ) < (den : ℚ) := by exact_mod_cast hd
  have hfloor : ⌊q⌋ = ((num / den : Nat) : Int) := floor_natCast_div num den
  have hmod := Nat.div_add_mod num den
  have hmodq : (den : ℚ) * ((num / den : Nat) : ℚ) + ((num % den : Nat) : ℚ) = (num : ℚ) := by
    exact_mod_cast congrArg (fun n : Nat => (n : ℚ)) hmod
  have hfrac : q - ((⌊q⌋ : Int) : ℚ) = ((num % den : Nat) : ℚ) / (den : ℚ) := by
    rw [hfloor, hqdef]
    field_simp
    have hdd : (((num : Int) / (den : Int) : Int) : ℚ) = ((num / den : Nat) : ℚ) := by
      rw [show ((num : Int) / (den : Int)) = ((num / den : Nat) : Int) by omega]
      exact Int.cast_natCast _
    rw [hdd]
    linarith [hmodq]
  have hkey1 : (q - ((⌊q⌋ : Int) : ℚ) < 1/2) ↔ 2 * (num % den) < den := by
    have hc : ((num % den : Nat) : ℚ) * 2 = ((2 * (num % den) : Nat) : ℚ) := by
      push_cast; ring
    rw [hfrac, div_lt_div_iff₀ hdq (by norm_num : (0:ℚ) < 2), one_mul, hc]
    exact ⟨fun h => by exact_mod_cast h, fun h => by exact_mod_cast h⟩
  have hkey2 : (1/2 < q - ((⌊q⌋ : Int) : ℚ)) ↔ den < 2 * (num % den) := by
    have hc : ((num % den : Nat) : ℚ) * 2 = ((2 * (num % den) : Nat) : ℚ) := by
      push_cast; ring
    rw [hfrac, div_lt_div_iff₀ (by norm_num : (0:ℚ) < 2) hdq, one_mul, hc]
    exact ⟨fun h => by exact_mod_cast h, fun h => by exact_mod_cast h⟩
  have hkey3 : (2 ∣ ⌊q⌋) ↔ num / den % 2 = 0 := by
    rw [hfloor]; omega
  unfold rne rneFrac
  by_cases hc1 : 2 * (num % den) < den
  · rw [if_pos hc1, if_pos (hkey1.mpr hc1), hfloor]
  · rw [if_neg hc1, if_neg (fun h => hc1 (hkey1.mp h))]
    by_cases hc2 : den < 2 * (num % den)
    · rw [if_pos hc2, if_pos (hkey2.mpr hc2), hfloor]
      omega
    · rw [if_neg hc2, if_neg (fun h => hc2 (hkey2.mp h))]
      by_cases hc3 : num / den % 2 = 0
      · rw [if_pos hc3, if_pos (hkey3.mpr hc3), hfloor]
      · rw [if_neg hc3, if_neg (fun h => hc3 (hkey3.mp h)), hfloor]
        omega

theorem flog2Frac_eq {a b : Nat} (hb : 0 < b) :
    flog2Frac a b = qFloorLog2 ((a : ℚ) / (b : ℚ)) := by
  have hbq : (0:ℚ) < (b:ℚ) := by exact_mod_cast hb
  set q : ℚ := (a : ℚ) / (b : ℚ) with hqdef
  have h1iff : (1:ℚ) ≤ q ↔ b ≤ a := by
    rw [hqdef, le_div_iff₀ hbq, one_mul]
    exact ⟨fun h => by exact_mod_cast h, fun h => by exact_mod_cast h⟩
  have hfq : Int.toNat ⌊q⌋ = a / b := by
    rw [hqdef, floor_natCast_div, Int.toNat_natCast]
  have hqinv : q⁻¹ = (b : ℚ) / (a : ℚ) := by rw [hqdef, inv_div]
  have hfqi : Int.toNat ⌊q⁻¹⌋ = b / a := by
    rw [hqinv, floor_natCast_div, Int.toNat_natCast]
  unfold flog2Frac qFloorLog2
  rw [hfq, hfqi]
  by_cases hba : b ≤ a
  · rw [if_pos hba, if_pos (h1iff.mpr hba)]
  · rw [if_neg hba, if_neg (fun h => hba (h1iff.mp h))]
    have hcond : q * pow2z (nlog2 (b / a) : Int) = 1 ↔ a * 2 ^ nlog2 (b / a) = b := by
      rw [hqdef, pow2z_natCast, div_mul_eq_mul_div,
        div_eq_one_iff_eq (ne_of_gt hbq)]
      constructor
      · intro h; exact_mod_cast h
      · intro h; exact_mod_cast h
    by_cases hc : a * 2 ^ nlog2 (b / a) = b
    · rw [if_pos hc, if_pos (hcond.mpr hc)]
    · rw [if_neg hc, if_neg (fun h => hc (hcond.mp h))]

end SolSub

namespace SolSub

theorem f32ofFrac_eq {a b : Nat} (hb : 0 < b) :
    (f32ofFrac a b).toRat = f32round ((a : ℚ) / (b : ℚ)) := by
  by_cases ha : a = 0
  · subst ha
    rw [f32ofFrac]
    rw [if_pos rfl]
    rw [show ((0 : Nat) : ℚ) / (b : ℚ) = 0 by norm_num]
    rw [f32round_of_nonpos le_rfl]
    rw [F32.toRat]
    norm_num
  · have ha' : 0 < a := Nat.pos_of_ne_zero ha
    have hbq : (0:ℚ) < (b:ℚ) := by exact_mod_cast hb
    have haq : (0:ℚ) < (a:ℚ) := by exact_mod_cast ha'
    have hq : (0:ℚ) < (a:ℚ) / (b:ℚ) := by positivity
    rw [f32ofFrac]
    rw [if_neg ha]
    rw [f32round]
    rw [if_pos hq]
    rw [F32.toRat]
    rw [← flog2Frac_eq hb]
    by_cases hE : 0 ≤ flog2Frac a b - 23
    · rw [if_pos hE]
      congr 1
      have hden : (a : ℚ) / (b : ℚ) / pow2z (flog2Frac a b - 23)
          = (a : ℚ) / ((b * 2 ^ (flog2Frac a b - 23).toNat : Nat) : ℚ) := by
        rw [pow2z_of_nonneg hE, div_div]
        push_cast
        ring_nf
      rw [hden, ← rneFrac_eq (by positivity)]
      exact (Int.cast_natCast _).symm
    · rw [if_neg hE]
      congr 1
      have hb0 : ((b : Nat) : ℚ) ≠ 0 := by positivity
      have h20 : ((2 ^ (-(flog2Frac a b - 23)).toNat : Nat) : ℚ) ≠ 0 := by positivity
      have hden : (a : ℚ) / (b : ℚ) / pow2z (flog2Frac a b - 23)
          = ((a * 2 ^ (-(flog2Frac a b - 23)).toNat : Nat) : ℚ) / (b : ℚ) := by
        rw [pow2z_of_neg (by omega)]
        field_simp
      rw [hden, ← rneFrac_eq hb]
      exact (Int.cast_natCast _).symm

theorem f32mul_eq (x y : F32) : (f32mul x y).toRat = f32round (x.toRat * y.toRat) := by
  have hprod : x.toRat * y.toRat = ((x.m * y.m : Nat) : ℚ) * pow2z (x.e + y.e) := by
    rw [F32.toRat, F32.toRat, pow2z_add]
    push_cast
    ring
  rw [f32mul]
  by_cases hE : 0 ≤ x.e + y.e
  · rw [if_pos hE, f32ofFrac_eq (by norm_num : (0:Nat) < 1)]
    congr 1
    rw [hprod, pow2z_of_nonneg hE]
    push_cast
    ring
  · rw [if_neg hE, f32ofFrac_eq (by positivity : (0:Nat) < 2 ^ (-(x.e + y.e)).toNat)]
    congr 1
    rw [hprod, pow2z_of_neg (by omega)]
    push_cast
    rw [div_eq_mul_inv]

theorem f32toU64_eq (x : F32) : f32toU64 x = asU64sat x.toRat := by
  rw [f32toU64, asU64sat]
  congr 1
  by_cases hE : 0 ≤ x.e
  · rw [if_pos hE]
    have hval : x.toRat = ((x.m * 2 ^ x.e.toNat : Nat) : ℚ) := by
      rw [F32.toRat, pow2z_of_nonneg hE]
      push_cast
      ring
    rw [hval, Int.floor_natCast, Int.toNat_natCast]
  · rw [if_neg hE]
    have hval : x.toRat = ((x.m : Nat) : ℚ) / ((2 ^ (-x.e).toNat : Nat) : ℚ) := by
      rw [F32.toRat, pow2z_of_neg (by omega), div_eq_mul_inv]
    rw [hval, floor_natCast_div, Int.toNat_natCast]

theorem codeEntitlement_eq (tp sh : Nat) : codeEntitlement tp sh = entitlementQ tp sh := by
  rw [codeEntitlement, entitlementQ, f32toU64_eq, f32mul_eq,
    f32ofFrac_eq (by norm_num : (0:Nat) < 1), f32ofFrac_eq (by norm_num : (0:Nat) < 100)]
  norm_num

theorem codeEntitlement_le (tp sh : Nat) : codeEntitlement tp sh ≤ U64CAP - 1 := by
  rw [codeEntitlement, f32toU64]
  exact min_le_right _ _

theorem codeEntitlement_mono {tp1 tp2 : Nat} (h : tp1 ≤ tp2) (sh : Nat) :
    codeEntitlement tp1 sh ≤ codeEntitlement tp2 sh := by
  rw [codeEntitlement_eq, codeEntitlement_eq]
  rw [entitlementQ, entitlementQ, asU64sat, asU64sat]
  have hpct : 0 ≤ f32round ((sh : ℚ) / 100) := f32round_nonneg _
  have h1 : f32round (tp1 : ℚ) ≤ f32round (tp2 : ℚ) :=
    f32round_mono (by positivity) (by exact_mod_cast h)
  have h2 := mul_le_mul_of_nonneg_right h1 hpct
  have h3 := f32round_mono (mul_nonneg (f32round_nonneg _) hpct) h2
  have h4 := Int.floor_mono h3
  have h5 := Int.toNat_le_toNat h4
  exact min_le_min h5 le_rfl

end SolSub

namespace SolSub

/-! ## Data model (processor.rs) -/

/-- `SubscriptionData` (processor.rs).  Pubkeys are modelled as opaque `Nat`
identifiers (only equality is ever used on them). -/
structure SubscriptionData where
  token_mint : Nat
  owner_addresses : List Nat
  owner_shares : List Nat
  withdrawn_amounts : List Nat
  total_paid : Nat
  price : Nat
  period_duration : Nat
  paid_until : Int
  deriving Repr, DecidableEq

/-- The errors reachable in the modelled fragment (errors.rs), plus
`AllocationFailed` for a propagated storage failure and `PanicUnwrap` for a
Rust panic on `Option::unwrap` / out-of-bounds indexing. -/
inductive SubError where
  | IncorrectOwner
  | InvalidSubscriptionAccount
  | BalanceTooLow
  | DerivedKeyInvalid
  | TokenTransferFailed
  | IncorrectMint
  | DelegateShouldBeNone
  | CloseAuthorityShouldBeNone
  | MaxOwnersExceeded
  | OwnerAddressesToSharesMismatch
  | FundsTokenAccountOwnerMismatch
  | WithdrawerIsNotAnOwner
  | WithdrawalOverMaxAllowed
  | AllocationFailed
  | PanicUnwrap
  deriving Repr, DecidableEq

/-- processor.rs: `MAX_OWNER_LIMIT`. -/
def MAX_OWNER_LIMIT : Nat := 5

/-- processor.rs: `SubscriptionData::add_funds`
(`self.total_paid = self.total_paid + amount`, wrapping u64 addition). -/
def add_funds (s : SubscriptionData) (amount : Nat) : SubscriptionData :=
  { s with total_paid := wrapU64 (s.total_paid + amount) }

/-! ## create_subscription (processor/create_subscription.rs)

External collaborators appear as boolean oracles: `key_match` is the result
of comparing the supplied record account with the derived address, and
`alloc_ok` is whether `create_or_allocate_account_raw` succeeds. -/

structure CreateSubscriptionArgs where
  owner_addresses : List Nat
  owner_shares : List Nat
  token_mint : Nat
  resource : Nat
  price : Nat
  period_duration : Nat
  deriving Repr, DecidableEq

def create_subscription (args : CreateSubscriptionArgs) (key_match alloc_ok : Bool) :
    Except SubError SubscriptionData :=
  if !key_match then .error .InvalidSubscriptionAccount
  else if args.owner_addresses.length > MAX_OWNER_LIMIT then .error .MaxOwnersExceeded
  else if args.owner_shares.length ≠ args.owner_shares.length then
    -- verbatim from the source: the left operand is also `owner_shares`
    .error .OwnerAddressesToSharesMismatch
  else if !alloc_ok then .error .AllocationFailed
  else .ok {
    token_mint := args.token_mint,
    owner_addresses := args.owner_addresses,
    owner_shares := args.owner_shares,
    withdrawn_amounts := List.replicate args.owner_addresses.length 0,
    total_paid := 0,
    price := args.price,
    period_duration := args.period_duration,
    paid_until := 0 }

/-! ## pay_subscription (processor/pay_subscription.rs) -/

/-- The state update a successful `pay_subscription` performs:
`add_funds(price)` then the period extension on `paid_until`. -/
def payApply (s : SubscriptionData) (now : Int) : SubscriptionData :=
  let s1 := add_funds s s.price
  if s1.paid_until < now then
    { s1 with paid_until := wrapI64 (now + i64ofU64 s1.period_duration) }
  else
    { s1 with paid_until := wrapI64 (s1.paid_until + i64ofU64 s1.period_duration) }

/-- processor/pay_subscription.rs: `pay_subscription`.  The boolean inputs
are the escrow-account facts read from the external token account
(`owner == subscription key`, `delegate == None`, `close_authority == None`)
and whether the external SPL transfer succeeds; `payer_token_amount` is the
payer funding account's balance, `now` the clock sysvar timestamp. -/
def pay_subscription (s : SubscriptionData)
    (funds_owner_ok delegate_none close_authority_none : Bool)
    (payer_token_amount : Nat) (transfer_ok : Bool) (now : Int) :
    Except SubError SubscriptionData :=
  if !funds_owner_ok then .error .FundsTokenAccountOwnerMismatch
  else if !delegate_none then .error .DelegateShouldBeNone
  else if !close_authority_none then .error .CloseAuthorityShouldBeNone
  else if payer_token_amount - s.price < 0 then
    -- verbatim from the source: `account.amount.saturating_sub(price) < 0`
    .error .BalanceTooLow
  else if !transfer_ok then .error .TokenTransferFailed
  else .ok (payApply s now)

/-- Folding a sequence of successful payments (one clock reading per call). -/
def payMany (s : SubscriptionData) (nows : List Int) : SubscriptionData :=
  nows.foldl payApply s

/-! ## withdraw_funds (processor/withdraw_funds.rs) -/

/-- processor/withdraw_funds.rs: `withdraw_funds`.  `funds_owner_ok` and
`derivation_ok` are the external escrow-ownership and PDA-derivation checks;
`mint` is the supplied mint account's key, `withdrawer` the signing owner,
`transfer_ok` whether the external SPL transfer succeeds. -/
def withdraw_funds (s : SubscriptionData) (funds_owner_ok derivation_ok : Bool)
    (mint withdrawer amount : Nat) (transfer_ok : Bool) :
    Except SubError SubscriptionData :=
  if !funds_owner_ok then .error .FundsTokenAccountOwnerMismatch
  else if !derivation_ok then .error .DerivedKeyInvalid
  else if s.token_mint ≠ mint then .error .IncorrectMint
  else
    match s.owner_addresses.findIdx? (fun address => address == withdrawer) with
    | none => .error .WithdrawerIsNotAnOwner
    | some owner_index =>
      match s.owner_shares[owner_index]?, s.withdrawn_amounts[owner_index]? with
      | some owner_share, some current_withdrawn =>
        if amount > wsubU64 (codeEntitlement s.total_paid owner_share) current_withdrawn then
          .error .WithdrawalOverMaxAllowed
        else if !transfer_ok then .error .TokenTransferFailed
        else .ok { s with withdrawn_amounts :=
          s.withdrawn_amounts.set owner_index (wrapU64 (current_withdrawn + amount)) }
      | _, _ => .error .PanicUnwrap

/-! ## Reachability -/

/-- One successful mutating operation on a record. -/
inductive Step : SubscriptionData → SubscriptionData → Prop where
  | pay : ∀ (s s' : SubscriptionData) (fOk dOk cOk : Bool) (bal : Nat) (tOk : Bool) (now : Int),
      pay_subscription s fOk dOk cOk bal tOk now = .ok s' → Step s s'
  | withdraw : ∀ (s s' : SubscriptionData) (fOk dOk : Bool) (mint wd amt : Nat) (tOk : Bool),
      withdraw_funds s fOk dOk mint wd amt tOk = .ok s' → Step s s'

/-- States reachable from a fresh creation by successful operations. -/
inductive Reachable : SubscriptionData → Prop where
  | created : ∀ (args : CreateSubscriptionArgs) (kOk aOk : Bool) (s : SubscriptionData),
      create_subscription args kOk aOk = .ok s → Reachable s
  | step : ∀ s s', Reachable s → Step s s' → Reachable s'

/-- States reachable from a fresh creation by successful operations in which
no payment wraps `total_paid` past `2^64`. -/
inductive ReachableNW : SubscriptionData → Prop where
  | created : ∀ (args : CreateSubscriptionArgs) (kOk aOk : Bool) (s : SubscriptionData),
      create_subscription args kOk aOk = .ok s → ReachableNW s
  | pay : ∀ (s s' : SubscriptionData) (fOk dOk cOk : Bool) (bal : Nat) (tOk : Bool) (now : Int),
      ReachableNW s → pay_subscription s fOk dOk cOk bal tOk now = .ok s' →
      s.total_paid + s.price < U64CAP → ReachableNW s'
  | withdraw : ∀ (s s' : SubscriptionData) (fOk dOk : Bool) (mint wd amt : Nat) (tOk : Bool),
      ReachableNW s → withdraw_funds s fOk dOk mint wd amt tOk = .ok s' → ReachableNW s'

end SolSub

namespace SolSub

/-! ## Characterization lemmas -/

theorem pay_ok_inv {s s' : SubscriptionData} {fOk dOk cOk : Bool} {bal : Nat}
    {tOk : Bool} {now : Int}
    (h : pay_subscription s fOk dOk cOk bal tOk now = .ok s') : s' = payApply s now := by
  rw [pay_subscription] at h
  split_ifs at h
  exact (Except.ok.inj h).symm

theorem pay_always_ok (s : SubscriptionData) (bal : Nat) (now : Int) :
    pay_subscription s true true true bal true now = .ok (payApply s now) := by
  rw [pay_subscription]
  simp [Nat.not_lt_zero]

theorem withdraw_char {s : SubscriptionData} {mint wd : Nat} (amt : Nat)
    {i sh w : Nat}
    (hmint : s.token_mint = mint)
    (hfind : s.owner_addresses.findIdx? (fun address => address == wd) = some i)
    (hsh : s.owner_shares[i]? = some sh)
    (hw : s.withdrawn_amounts[i]? = some w) :
    withdraw_funds s true true mint wd amt true =
      (if amt > wsubU64 (codeEntitlement s.total_paid sh) w then
        .error .WithdrawalOverMaxAllowed
      else .ok { s with withdrawn_amounts :=
        s.withdrawn_amounts.set i (wrapU64 (w + amt)) }) := by
  rw [withdraw_funds]
  simp only [Bool.not_true, Bool.false_eq_true, if_false, hmint, ne_eq, not_true_eq_false,
    hfind, hsh, hw]

theorem withdraw_ok_inv {s s' : SubscriptionData} {fOk dOk : Bool} {mint wd amt : Nat}
    {tOk : Bool}
    (h : withdraw_funds s fOk dOk mint wd amt tOk = .ok s') :
    s.token_mint = mint ∧
    ∃ i sh w, s.owner_addresses.findIdx? (fun address => address == wd) = some i ∧
      s.owner_shares[i]? = some sh ∧ s.withdrawn_amounts[i]? = some w ∧
      amt ≤ wsubU64 (codeEntitlement s.total_paid sh) w ∧
      s' = { s with withdrawn_amounts :=
        s.withdrawn_amounts.set i (wrapU64 (w + amt)) } := by
  rw [withdraw_funds] at h
  split at h
  · cases h
  split at h
  · cases h
  split at h
  · cases h
  next hmint =>
  split at h
  · cases h
  next i hfind =>
  split at h
  next sh w hsh hw =>
    split at h
    next hgt => cases h
    next hgt =>
      split at h
      · cases h
      exact ⟨by omega, i, sh, w, hfind, hsh, hw, by omega, (Except.ok.inj h).symm⟩
  all_goals cases h

end SolSub

namespace SolSub

/-! ## The proportional-cap invariant (with f32 entitlement) -/

theorem U64CAP_big : U64CAP = 18446744073709551616 := by
  rw [U64CAP]
  norm_num

theorem wsubU64_of_le {a b : Nat} (hb : b ≤ a) (ha : a < U64CAP) :
    wsubU64 a b = a - b := by
  rw [wsubU64]
  rw [U64CAP_big] at *
  omega

theorem wrapU64_of_lt {a : Nat} (ha : a < U64CAP) : wrapU64 a = a := by
  rw [wrapU64]
  exact Nat.mod_eq_of_lt ha

/-- The inductive invariant: every withdrawn entry is bounded by the
f32-computed entitlement for the current `total_paid` and that entry's
share. -/
def CapInvariant (s : SubscriptionData) : Prop :=
  ∀ i, s.withdrawn_amounts.getD i 0 ≤
    codeEntitlement s.total_paid (s.owner_shares.getD i 0)

theorem capInvariant_created {args : CreateSubscriptionArgs} {kOk aOk : Bool}
    {s : SubscriptionData} (h : create_subscription args kOk aOk = .ok s) :
    CapInvariant s := by
  rw [create_subscription] at h
  split_ifs at h
  intro i
  have hs := Except.ok.inj h
  rw [← hs]
  simp only [List.getD_eq_getElem?_getD, List.getElem?_replicate]
  split_ifs <;> simp

theorem capInvariant_pay {s : SubscriptionData} {now : Int}
    (hnw : s.total_paid + s.price < U64CAP) (hinv : CapInvariant s) :
    CapInvariant (payApply s now) := by
  have htp : (payApply s now).total_paid = s.total_paid + s.price := by
    rw [payApply]
    split_ifs <;> (rw [add_funds]; exact wrapU64_of_lt hnw)
  have hwd : (payApply s now).withdrawn_amounts = s.withdrawn_amounts := by
    rw [payApply]
    split_ifs <;> rfl
  have hsh : (payApply s now).owner_shares = s.owner_shares := by
    rw [payApply]
    split_ifs <;> rfl
  intro i
  rw [htp, hwd, hsh]
  calc s.withdrawn_amounts.getD i 0
      ≤ codeEntitlement s.total_paid (s.owner_shares.getD i 0) := hinv i
    _ ≤ codeEntitlement (s.total_paid + s.price) (s.owner_shares.getD i 0) :=
        codeEntitlement_mono (Nat.le_add_right _ _) _

theorem capInvariant_withdraw {s s' : SubscriptionData} {fOk dOk : Bool}
    {mint wd amt : Nat} {tOk : Bool}
    (h : withdraw_funds s fOk dOk mint wd amt tOk = .ok s')
    (hinv : CapInvariant s) : CapInvariant s' := by
  obtain ⟨hmint, i, sh, w, hfind, hsh, hw, hamt, hs'⟩ := withdraw_ok_inv h
  have hshD : s.owner_shares.getD i 0 = sh := by
    rw [List.getD_eq_getElem?_getD, hsh]
    rfl
  have hwD : s.withdrawn_amounts.getD i 0 = w := by
    rw [List.getD_eq_getElem?_getD, hw]
    rfl
  have hcap : codeEntitlement s.total_paid sh < U64CAP := by
    have h1 := codeEntitlement_le s.total_paid sh
    rw [U64CAP_big] at *
    omega
  have hwle : w ≤ codeEntitlement s.total_paid sh := by
    rw [← hwD, ← hshD]
    exact hinv i
  have hsub : wsubU64 (codeEntitlement s.total_paid sh) w
      = codeEntitlement s.total_paid sh - w := wsubU64_of_le hwle hcap
  have hnew : w + amt ≤ codeEntitlement s.total_paid sh := by
    rw [hsub] at hamt
    omega
  intro j
  rw [hs']
  simp only
  by_cases hij : j = i
  · subst hij
    rw [List.getD_eq_getElem?_getD, List.getElem?_set_self', hw]
    simp only [Option.map_eq_map, Option.map_some, Option.getD_some, Function.const_apply]
    rw [hshD]
    rw [wrapU64_of_lt (by omega)]
    exact hnew
  · rw [List.getD_eq_getElem?_getD, List.getElem?_set_ne (fun hh => hij hh.symm),
      ← List.getD_eq_getElem?_getD]
    exact hinv j

theorem capInvariant_reachableNW {s : SubscriptionData} (h : ReachableNW s) :
    CapInvariant s := by
  induction h with
  | created args kOk aOk s hc => exact capInvariant_created hc
  | pay s s' fOk dOk cOk bal tOk now _ hp hnw ih =>
    rw [pay_ok_inv hp]
    exact capInvariant_pay hnw ih
  | withdraw s s' fOk dOk mint wd amt tOk _ hwd ih =>
    exact capInvariant_withdraw hwd ih

end SolSub

namespace SolSub

/-! ## payApply field lemmas -/

theorem payApply_total_paid (s : SubscriptionData) (now : Int) :
    (payApply s now).total_paid = wrapU64 (s.total_paid + s.price) := by
  rw [payApply]
  split_ifs <;> rfl

theorem payApply_price (s : SubscriptionData) (now : Int) :
    (payApply s now).price = s.price := by
  rw [payApply]
  split_ifs <;> rfl

theorem payApply_period_duration (s : SubscriptionData) (now : Int) :
    (payApply s now).period_duration = s.period_duration := by
  rw [payApply]
  split_ifs <;> rfl

theorem wrapI64_of_range {z : Int} (hlo : -2 ^ 63 ≤ z) (hhi : z < 2 ^ 63) :
    wrapI64 z = z := by
  rw [wrapI64]
  have h1 : (2:Int) ^ 63 = 9223372036854775808 := by norm_num
  have h2 : (2:Int) ^ 64 = 18446744073709551616 := by norm_num
  rw [h1, h2] at *
  omega

theorem i64ofU64_of_lt {n : Nat} (h : n < 2 ^ 63) : i64ofU64 n = (n : Int) := by
  rw [i64ofU64, if_pos h]

theorem i64ofU64_nonneg_of_lt {n : Nat} (h : n < 2 ^ 63) : 0 ≤ i64ofU64 n := by
  rw [i64ofU64_of_lt h]
  exact Int.natCast_nonneg n

/-- The stored `paid_until` after a successful payment, when the additions
stay inside the i64 range. -/
theorem payApply_paid_until (s : SubscriptionData) (now : Int)
    (h2 : s.period_duration < 2 ^ 63)
    (h3 : -2 ^ 63 ≤ s.paid_until) (h4 : -2 ^ 63 ≤ now)
    (h5 : s.paid_until + (s.period_duration : Int) < 2 ^ 63)
    (h6 : now + (s.period_duration : Int) < 2 ^ 63) :
    (payApply s now).paid_until =
      (if s.paid_until < now then now + (s.period_duration : Int)
       else s.paid_until + (s.period_duration : Int)) := by
  have hd : (0:Int) ≤ (s.period_duration : Int) := Int.natCast_nonneg _
  rw [payApply]
  have hpu : (add_funds s s.price).paid_until = s.paid_until := rfl
  have hdur : (add_funds s s.price).period_duration = s.period_duration := rfl
  simp only [hpu, hdur]
  split_ifs with hlt
  · rw [i64ofU64_of_lt h2, wrapI64_of_range (by omega) h6]
  · rw [i64ofU64_of_lt h2, wrapI64_of_range (by omega) h5]

theorem payApply_paid_until_mono (s : SubscriptionData) (now : Int)
    (h2 : s.period_duration < 2 ^ 63)
    (h3 : -2 ^ 63 ≤ s.paid_until) (h4 : -2 ^ 63 ≤ now)
    (h5 : s.paid_until + (s.period_duration : Int) < 2 ^ 63)
    (h6 : now + (s.period_duration : Int) < 2 ^ 63) :
    s.paid_until ≤ (payApply s now).paid_until ∧
    ((payApply s now).paid_until ≤ s.paid_until + (s.period_duration : Int) ∨
     (payApply s now).paid_until ≤ now + (s.period_duration : Int)) := by
  rw [payApply_paid_until s now h2 h3 h4 h5 h6]
  have hd : (0:Int) ≤ (s.period_duration : Int) := Int.natCast_nonneg _
  split_ifs with hlt
  · exact ⟨by omega, Or.inr le_rfl⟩
  · exact ⟨by omega, Or.inl le_rfl⟩

/-! ## payMany lemmas -/

theorem payMany_total_paid (nows : List Int) : ∀ s : SubscriptionData,
    s.total_paid < U64CAP →
    (payMany s nows).total_paid = (s.total_paid + nows.length * s.price) % U64CAP := by
  induction nows with
  | nil =>
    intro s htp
    rw [payMany, List.foldl]
    simp only [List.length_nil, Nat.zero_mul, Nat.add_zero]
    exact (Nat.mod_eq_of_lt htp).symm
  | cons now nows ih =>
    intro s htp
    have hstep : payMany s (now :: nows) = payMany (payApply s now) nows := rfl
    rw [hstep, ih (payApply s now) (by
      rw [payApply_total_paid, wrapU64]
      exact Nat.mod_lt _ (by rw [U64CAP_big]; norm_num))]
    rw [payApply_total_paid, payApply_price, wrapU64]
    rw [Nat.mod_add_mod]
    congr 1
    rw [List.length_cons]
    ring

theorem scanl_head (f : SubscriptionData → Int → SubscriptionData)
    (b : SubscriptionData) (l : List Int) :
    (List.scanl f b l).head? = some b := by
  cases l <;> rfl

/-- Monotonicity of `total_paid` and `paid_until` along a sequence of
successful payments, when no u64/i64 wrap occurs. -/
theorem payChain (nows : List Int) : ∀ s : SubscriptionData,
    s.total_paid + nows.length * s.price < U64CAP →
    s.period_duration < 2 ^ 63 →
    -2 ^ 63 ≤ s.paid_until →
    (∀ now ∈ nows, -2 ^ 63 ≤ now) →
    s.paid_until + (nows.length : Int) * (s.period_duration : Int) < 2 ^ 63 →
    (∀ now ∈ nows, now + (nows.length : Int) * (s.period_duration : Int) < 2 ^ 63) →
    List.Chain' (fun a b => a.total_paid ≤ b.total_paid ∧ a.paid_until ≤ b.paid_until)
      (List.scanl payApply s nows) := by
  induction nows with
  | nil =>
    intro s _ _ _ _ _ _
    simp [List.scanl]
  | cons now nows ih =>
    intro s h1 h2 h3 h4 h5 h6
    have hd : (0:Int) ≤ (s.period_duration : Int) := Int.natCast_nonneg _
    have hdn : (0:Int) ≤ (nows.length : Int) * (s.period_duration : Int) := by positivity
    have hlen : ((now :: nows).length : Int) = (nows.length : Int) + 1 := by
      rw [List.length_cons]
      push_cast
      ring
    have hlenN : (now :: nows).length = nows.length + 1 := List.length_cons now nows
    -- per-step bounds at the head
    have h5' : s.paid_until + (s.period_duration : Int) < 2 ^ 63 := by
      rw [hlen] at h5
      nlinarith
    have h6' : now + (s.period_duration : Int) < 2 ^ 63 := by
      have := h6 now (List.mem_cons_self now nows)
      rw [hlen] at this
      nlinarith
    have h4' : -2 ^ 63 ≤ now := h4 now (List.mem_cons_self now nows)
    have htpstep : (payApply s now).total_paid = s.total_paid + s.price := by
      rw [payApply_total_paid]
      apply wrapU64_of_lt
      have hple : s.price ≤ (now :: nows).length * s.price :=
        Nat.le_mul_of_pos_left s.price (by rw [hlenN]; omega)
      omega
    have hpustep := payApply_paid_until_mono s now h2 h3 h4' h5' h6'
    rw [List.scanl]
    apply List.chain'_cons'.mpr
    constructor
    · intro b hb
      rw [scanl_head] at hb
      have hbeq : b = payApply s now := by
        exact (Option.some.inj hb).symm
      rw [hbeq]
      constructor
      · rw [htpstep]
        omega
      · exact hpustep.1
    · apply ih (payApply s now)
      · rw [htpstep, payApply_price]
        have hexp : (now :: nows).length * s.price = nows.length * s.price + s.price := by
          rw [hlenN]
          ring
        omega
      · rw [payApply_period_duration]
        exact h2
      · have := hpustep.1
        omega
      · intro now' hm
        exact h4 now' (List.mem_cons_of_mem now hm)
      · rw [payApply_period_duration]
        rcases hpustep.2 with hcase | hcase
        · have h5'' : s.paid_until + ((nows.length : Int) + 1) * (s.period_duration : Int)
              < 2 ^ 63 := by
            rw [hlen] at h5
            exact h5
          nlinarith
        · have h6'' : now + ((nows.length : Int) + 1) * (s.period_duration : Int) < 2 ^ 63 := by
            have := h6 now (List.mem_cons_self now nows)
            rw [hlen] at this
            exact this
          nlinarith
      · intro now' hm
        rw [payApply_period_duration]
        have := h6 now' (List.mem_cons_of_mem now hm)
        rw [hlen] at this
        nlinarith

end SolSub

namespace SolSub

/-! ## Concrete records for scenarios, witnesses and counterexamples -/

/-- Creation arguments: one owner (address 7) with a 100 % share, mint 5,
price 16777219 = 2^24 + 3, period 60 s. -/
def c1args : CreateSubscriptionArgs :=
  { owner_addresses := [7], owner_shares := [100], token_mint := 5,
    resource := 11, price := 16777219, period_duration := 60 }

/-- The record a successful creation with `c1args` writes. -/
def c1s0 : SubscriptionData :=
  { token_mint := 5, owner_addresses := [7], owner_shares := [100],
    withdrawn_amounts := [0], total_paid := 0, price := 16777219,
    period_duration := 60, paid_until := 0 }

/-- `c1s0` after one successful payment at time 0. -/
def c1s1 : SubscriptionData :=
  { c1s0 with total_paid := 16777219, paid_until := 60 }

/-- `c1s1` after a successful withdrawal of 16777220 by owner 7. -/
def c1s2 : SubscriptionData :=
  { c1s1 with withdrawn_amounts := [16777220] }

/-- A small record: one owner (7, 100 %), mint 5, price 5, period 10 s. -/
def baseRec : SubscriptionData :=
  { token_mint := 5, owner_addresses := [7], owner_shares := [100],
    withdrawn_amounts := [0], total_paid := 0, price := 5,
    period_duration := 10, paid_until := 0 }

/-- A record whose period duration does not fit in `i64`. -/
def hugePeriodRec : SubscriptionData :=
  { baseRec with period_duration := 2 ^ 63 }

/-- A record with `total_paid` at `2^63`, price `2^63` (so that one more
payment wraps `total_paid`). -/
def wrapRec : SubscriptionData :=
  { baseRec with total_paid := 2 ^ 63, price := 2 ^ 63 }

/-- A record whose owner address 9 occurs at two indices with different
shares and withdrawn amounts. -/
def dupRec : SubscriptionData :=
  { token_mint := 5, owner_addresses := [9, 9], owner_shares := [60, 40],
    withdrawn_amounts := [0, 0], total_paid := 1000, price := 1000,
    period_duration := 10, paid_until := 0 }

/-! ## C1 -/

/-- C1 (amended): in every state reachable from a fresh creation by
successful operations none of which wraps `total_paid` past `2^64`, each
owner's withdrawn amount is bounded by the entitlement the code computes
with f32 arithmetic, `u64(f32(total_paid) * (f32(share[i]) / 100))`.
The floor-arithmetic bound `floor(total_paid * share[i] / 100)` claimed by
the spec does not hold on reachable states. -/
theorem c1_withdrawn_le_code_entitlement (s : SubscriptionData)
    (h : ReachableNW s) (i : Nat) :
    s.withdrawn_amounts.getD i 0 ≤
      codeEntitlement s.total_paid (s.owner_shares.getD i 0) :=
  capInvariant_reachableNW h i

theorem c1_withdrawn_le_code_entitlement_witness :
    ReachableNW c1s0 ∧
      c1s0.withdrawn_amounts.getD 0 0 ≤
        codeEntitlement c1s0.total_paid (c1s0.owner_shares.getD 0 0) :=
  have hr : ReachableNW c1s0 := ReachableNW.created c1args true true c1s0 rfl
  ⟨hr, c1_withdrawn_le_code_entitlement c1s0 hr 0⟩

/-- C1 counterexample: the state `c1s2` is reachable from a fresh creation
by one successful payment and one successful withdrawal, yet owner 0 has
withdrawn 16777220 while `floor(total_paid * share / 100) = 16777219`. -/
theorem c1_floor_cap_counterexample :
    Reachable c1s2 ∧
      ¬ (c1s2.withdrawn_amounts.getD 0 0 ≤
          specEntitlementFloor c1s2.total_paid (c1s2.owner_shares.getD 0 0)) := by
  have h0 : create_subscription c1args true true = .ok c1s0 := rfl
  have hp : pay_subscription c1s0 true true true 0 true 0 = .ok c1s1 := rfl
  have hw : withdraw_funds c1s1 true true 5 7 16777220 true = .ok c1s2 := rfl
  refine ⟨?_, by decide⟩
  exact Reachable.step c1s1 c1s2
    (Reachable.step c1s0 c1s1 (Reachable.created c1args true true c1s0 h0)
      (Step.pay c1s0 c1s1 true true true 0 true 0 hp))
    (Step.withdraw c1s1 c1s2 true true 5 7 16777220 true hw)

/-! ## C2 -/

/-- C2 (amended): for a withdrawal by a registered owner (first match at
index `i`, share and withdrawn entries present, mint matching, transfer
succeeding), the call fails with `WithdrawalOverMaxAllowed` exactly when
the requested amount exceeds `available`, where `available` is the wrapping
u64 subtraction of `withdrawn[i]` from the f32-computed entitlement;
otherwise it succeeds and adds exactly the requested amount to
`withdrawn[i]` (wrapping u64 addition). -/
theorem c2_withdraw_gate_exact (s : SubscriptionData) (mint wd amt i sh w : Nat)
    (hmint : s.token_mint = mint)
    (hfind : s.owner_addresses.findIdx? (fun address => address == wd) = some i)
    (hsh : s.owner_shares[i]? = some sh)
    (hw : s.withdrawn_amounts[i]? = some w) :
    withdraw_funds s true true mint wd amt true =
      (if amt > wsubU64 (codeEntitlement s.total_paid sh) w then
        .error .WithdrawalOverMaxAllowed
      else .ok { s with withdrawn_amounts :=
        s.withdrawn_amounts.set i (wrapU64 (w + amt)) }) :=
  withdraw_char amt hmint hfind hsh hw

theorem c2_withdraw_gate_exact_witness :
    withdraw_funds c1s1 true true 5 7 3 true =
      (if 3 > wsubU64 (codeEntitlement c1s1.total_paid 100) 0 then
        .error .WithdrawalOverMaxAllowed
      else .ok { c1s1 with withdrawn_amounts :=
        c1s1.withdrawn_amounts.set 0 (wrapU64 (0 + 3)) }) :=
  c2_withdraw_gate_exact c1s1 5 7 3 0 100 0 rfl (by decide) (by decide) (by decide)

/-- C2 counterexample: at the reachable record `c1s1` (total_paid 16777219,
share 100, withdrawn 0) the request 16777220 strictly exceeds the
floor-arithmetic availability `16777219 - 0`, yet the call succeeds instead
of failing with `WithdrawalOverMaxAllowed`. -/
theorem c2_floor_gate_counterexample :
    16777220 > specEntitlementFloor c1s1.total_paid 100
        - c1s1.withdrawn_amounts.getD 0 0 ∧
      withdraw_funds c1s1 true true 5 7 16777220 true = .ok c1s2 :=
  ⟨by decide, rfl⟩

/-! ## C9 -/

/-- C9 (confirmed): whenever `withdrawn[i]` is at most the entitlement the
code computes for the current `total_paid` and `share[i]`, the unchecked
u64 subtraction `max_absolute_share as u64 - withdrawn[i]` does not
underflow: the wrapping subtraction coincides with the exact one. -/
theorem c9_sub_no_underflow (s : SubscriptionData) (i sh w : Nat)
    (_hsh : s.owner_shares[i]? = some sh)
    (_hw : s.withdrawn_amounts[i]? = some w)
    (hle : w ≤ codeEntitlement s.total_paid sh) :
    wsubU64 (codeEntitlement s.total_paid sh) w
      = codeEntitlement s.total_paid sh - w := by
  apply wsubU64_of_le hle
  have h1 := codeEntitlement_le s.total_paid sh
  rw [U64CAP_big] at *
  omega

theorem c9_sub_no_underflow_witness :
    wsubU64 (codeEntitlement c1s1.total_paid 100) 0
      = codeEntitlement c1s1.total_paid 100 - 0 :=
  c9_sub_no_underflow c1s1 0 100 0 (by decide) (by decide) (by decide)

/-! ## C10 -/

/-- C10 (confirmed): when the withdrawer occurs in `owner_addresses`, the
operation resolves it to the smallest matching index `i`: the share and
prior withdrawn amount it gates on are those at `i`, on success exactly
`withdrawn[i]` is updated, and entries at every other index (in particular
at later duplicate occurrences) are unchanged. -/
theorem c10_first_match_index (s s' : SubscriptionData) (fOk dOk : Bool)
    (mint wd amt : Nat) (tOk : Bool) (i : Nat)
    (hfind : s.owner_addresses.findIdx? (fun address => address == wd) = some i)
    (h : withdraw_funds s fOk dOk mint wd amt tOk = .ok s') :
    (s.owner_addresses[i]? = some wd ∧
      ∀ j, j < i → s.owner_addresses[j]? ≠ some wd) ∧
    (∃ sh w, s.owner_shares[i]? = some sh ∧ s.withdrawn_amounts[i]? = some w ∧
      amt ≤ wsubU64 (codeEntitlement s.total_paid sh) w ∧
      s'.withdrawn_amounts = s.withdrawn_amounts.set i (wrapU64 (w + amt))) ∧
    (∀ j, j ≠ i → s'.withdrawn_amounts[j]? = s.withdrawn_amounts[j]?) := by
  obtain ⟨hmint, i', sh, w, hfind', hsh, hw, hamt, hs'⟩ := withdraw_ok_inv h
  rw [hfind] at hfind'
  have hii : i' = i := Option.some.inj hfind'.symm
  subst hii
  obtain ⟨hi, hp, hmin⟩ := List.findIdx?_eq_some_iff_getElem.mp hfind
  refine ⟨⟨?_, ?_⟩, ⟨sh, w, hsh, hw, hamt, by rw [hs']⟩, ?_⟩
  · rw [List.getElem?_eq_getElem hi]
    congr 1
    exact eq_of_beq hp
  · intro j hj hcontra
    have hj' : j < s.owner_addresses.length := Nat.lt_trans hj hi
    rw [List.getElem?_eq_getElem hj'] at hcontra
    have hx := Option.some.inj hcontra
    have := hmin j hj
    rw [hx] at this
    simp at this
  · intro j hj
    rw [hs']
    exact List.getElem?_set_ne (fun hh => hj hh.symm)

theorem c10_first_match_index_witness :
    (dupRec.owner_addresses[0]? = some 9 ∧
      ∀ j, j < 0 → dupRec.owner_addresses[j]? ≠ some 9) ∧
    (∃ sh w, dupRec.owner_shares[0]? = some sh ∧
      dupRec.withdrawn_amounts[0]? = some w ∧
      600 ≤ wsubU64 (codeEntitlement dupRec.total_paid sh) w ∧
      ({ dupRec with withdrawn_amounts := [600, 0] } :
        SubscriptionData).withdrawn_amounts
        = dupRec.withdrawn_amounts.set 0 (wrapU64 (w + 600))) ∧
    (∀ j, j ≠ 0 →
      ({ dupRec with withdrawn_amounts := [600, 0] } :
        SubscriptionData).withdrawn_amounts[j]?
        = dupRec.withdrawn_amounts[j]?) :=
  c10_first_match_index dupRec { dupRec with withdrawn_amounts := [600, 0] }
    true true 5 9 600 true 0 (by decide) rfl

end SolSub

namespace SolSub

/-! ## C3 -/

/-- C3 (code bug): the balance guard compares the unsigned value
`account.amount.saturating_sub(price)` against 0 with `<`, which can never
hold, so `pay_subscription` never returns `BalanceTooLow`; in particular a
payer balance of 0 against a price of 5 is not rejected before the
transfer — the call goes through the transfer and succeeds. -/
theorem c3_balance_check_never_fires :
    (∀ (s : SubscriptionData) (fOk dOk cOk : Bool) (bal : Nat) (tOk : Bool) (now : Int),
      pay_subscription s fOk dOk cOk bal tOk now ≠ .error .BalanceTooLow) ∧
    pay_subscription baseRec true true true 0 true 0
      = .ok { baseRec with total_paid := 5, paid_until := 10 } := by
  constructor
  · intro s fOk dOk cOk bal tOk now hcontra
    rw [pay_subscription] at hcontra
    split_ifs at hcontra <;> simp_all
  · rfl

/-! ## C4 -/

/-- Mismatched creation arguments: one address but two shares. -/
def c4args : CreateSubscriptionArgs :=
  { owner_addresses := [7], owner_shares := [60, 40], token_mint := 5,
    resource := 11, price := 5, period_duration := 10 }

/-- The record the mismatched arguments nevertheless produce. -/
def c4rec : SubscriptionData :=
  { token_mint := 5, owner_addresses := [7], owner_shares := [60, 40],
    withdrawn_amounts := [0], total_paid := 0, price := 5,
    period_duration := 10, paid_until := 0 }

/-- C4 (code bug): the shape check compares `owner_shares.len()` with
itself, so `create_subscription` never returns
`OwnerAddressesToSharesMismatch`; an argument list with 1 address and 2
shares is accepted and the record is written. -/
theorem c4_mismatch_check_never_fires :
    (∀ (args : CreateSubscriptionArgs) (kOk aOk : Bool),
      create_subscription args kOk aOk ≠ .error .OwnerAddressesToSharesMismatch) ∧
    create_subscription c4args true true = .ok c4rec := by
  constructor
  · intro args kOk aOk hcontra
    rw [create_subscription] at hcontra
    split_ifs at hcontra <;> simp_all
  · rfl

/-! ## C5 -/

/-- C5 (amended): every payment whose external checks and transfer succeed
applies `payApply`; over any sequence of successful payments the final
`total_paid` is `(initial + n * price) mod 2^64`; and provided the
accumulated sum stays below `2^64` and every `paid_until` update stays
inside the signed 64-bit range, both `total_paid` and `paid_until` are
non-decreasing across the sequence. -/
theorem c5_accrual_sum_and_monotone (s : SubscriptionData) (nows : List Int)
    (htp : s.total_paid < U64CAP) :
    (∀ (bal : Nat) (now : Int),
      pay_subscription s true true true bal true now = .ok (payApply s now)) ∧
    (payMany s nows).total_paid = (s.total_paid + nows.length * s.price) % U64CAP ∧
    (s.total_paid + nows.length * s.price < U64CAP →
     s.period_duration < 2 ^ 63 →
     -2 ^ 63 ≤ s.paid_until →
     (∀ now ∈ nows, -2 ^ 63 ≤ now) →
     s.paid_until + (nows.length : Int) * (s.period_duration : Int) < 2 ^ 63 →
     (∀ now ∈ nows, now + (nows.length : Int) * (s.period_duration : Int) < 2 ^ 63) →
     List.Chain' (fun a b => a.total_paid ≤ b.total_paid ∧ a.paid_until ≤ b.paid_until)
       (List.scanl payApply s nows)) :=
  ⟨fun bal now => pay_always_ok s bal now,
   payMany_total_paid nows s htp,
   fun h1 h2 h3 h4 h5 h6 => payChain nows s h1 h2 h3 h4 h5 h6⟩

theorem c5_accrual_sum_and_monotone_witness :
    (payMany baseRec [0, 1]).total_paid
      = (baseRec.total_paid + 2 * baseRec.price) % U64CAP ∧
    List.Chain' (fun a b => a.total_paid ≤ b.total_paid ∧ a.paid_until ≤ b.paid_until)
      (List.scanl payApply baseRec [0, 1]) :=
  ⟨(c5_accrual_sum_and_monotone baseRec [0, 1] (by decide)).2.1,
   (c5_accrual_sum_and_monotone baseRec [0, 1] (by decide)).2.2
     (by decide) (by decide) (by decide) (by decide) (by decide) (by decide)⟩

/-- C5 counterexample: on a record with `total_paid = 2^63` and
`price = 2^63` one further successful payment wraps `total_paid` to 0: the
result is not the initial value plus the price, and `total_paid`
decreases. -/
theorem c5_wrap_counterexample :
    pay_subscription wrapRec true true true 0 true 0 = .ok (payApply wrapRec 0) ∧
    (payApply wrapRec 0).total_paid = 0 ∧
    (payApply wrapRec 0).total_paid ≠ wrapRec.total_paid + wrapRec.price ∧
    (payApply wrapRec 0).total_paid < wrapRec.total_paid := by
  refine ⟨pay_always_ok wrapRec 0 0, ?_, ?_, ?_⟩ <;> decide

/-! ## C6 -/

/-- C6 (amended): on every successful payment, provided `period_duration`
is below `2^63` (so its u64-to-i64 cast is value-preserving) and the
relevant addition stays inside the i64 range, the new `paid_until` is
`now + period_duration` when `paid_until < now` (lapsed) and
`paid_until + period_duration` otherwise; outside those bounds the code
stores the two's-complement wrap of the sum instead. -/
theorem c6_period_extension (s s' : SubscriptionData) (fOk dOk cOk : Bool)
    (bal : Nat) (tOk : Bool) (now : Int)
    (h : pay_subscription s fOk dOk cOk bal tOk now = .ok s')
    (h2 : s.period_duration < 2 ^ 63)
    (h3 : -2 ^ 63 ≤ s.paid_until) (h4 : -2 ^ 63 ≤ now)
    (h5 : s.paid_until + (s.period_duration : Int) < 2 ^ 63)
    (h6 : now + (s.period_duration : Int) < 2 ^ 63) :
    s'.paid_until =
      (if s.paid_until < now then now + (s.period_duration : Int)
       else s.paid_until + (s.period_duration : Int)) := by
  rw [pay_ok_inv h]
  exact payApply_paid_until s now h2 h3 h4 h5 h6

theorem c6_period_extension_witness :
    (payApply baseRec 4).paid_until =
      (if baseRec.paid_until < 4 then 4 + (baseRec.period_duration : Int)
       else baseRec.paid_until + (baseRec.period_duration : Int)) :=
  c6_period_extension baseRec (payApply baseRec 4) true true true 0 true 4
    (pay_always_ok baseRec 0 4) (by decide) (by decide) (by decide)
    (by decide) (by decide)

/-- C6 counterexample: with `period_duration = 2^63` (whose `as i64` cast
is negative) a payment at time 1 on a lapsed record stores `1 - 2^63`
instead of `1 + 2^63`. -/
theorem c6_wrap_counterexample :
    pay_subscription hugePeriodRec true true true 0 true 1
      = .ok (payApply hugePeriodRec 1) ∧
    (payApply hugePeriodRec 1).paid_until = 1 - 2 ^ 63 ∧
    (payApply hugePeriodRec 1).paid_until
      ≠ 1 + (hugePeriodRec.period_duration : Int) := by
  refine ⟨pay_always_ok hugePeriodRec 0 1, ?_, ?_⟩ <;> decide

/-! ## C7 -/

theorem findIdx?_eq_none_of_not_mem {l : List Nat} {wd : Nat} (h : wd ∉ l) :
    l.findIdx? (fun address => address == wd) = none := by
  rw [List.findIdx?_eq_none_iff]
  intro x hx
  simp only [beq_eq_false_iff_ne, ne_eq]
  intro hxe
  exact h (hxe ▸ hx)

/-- C7 (amended): a withdrawal by an identity absent from `owner_addresses`
never succeeds (so the record is never modified), and whenever the earlier
validations pass — escrow ownership, derivation, and a supplied mint equal
to the record's — it fails precisely with `WithdrawerIsNotAnOwner`; with a
non-matching mint it fails earlier with `IncorrectMint`. -/
theorem c7_non_owner_always_fails (s : SubscriptionData) (fOk dOk : Bool)
    (mint wd amt : Nat) (tOk : Bool) (hnot : wd ∉ s.owner_addresses) :
    (∀ s', withdraw_funds s fOk dOk mint wd amt tOk ≠ .ok s') ∧
    (fOk = true → dOk = true → s.token_mint = mint →
      withdraw_funds s fOk dOk mint wd amt tOk = .error .WithdrawerIsNotAnOwner) := by
  have hfind := findIdx?_eq_none_of_not_mem hnot
  constructor
  · intro s' hok
    obtain ⟨_, i, _, _, hfind', _⟩ := withdraw_ok_inv hok
    rw [hfind] at hfind'
    exact Option.noConfusion hfind'
  · intro hf hd hm
    subst hf
    subst hd
    rw [withdraw_funds]
    simp only [Bool.not_true, Bool.false_eq_true, if_false, hm, ne_eq,
      not_true_eq_false, hfind]

theorem c7_non_owner_always_fails_witness :
    (∀ s', withdraw_funds baseRec true true 5 9 1 true ≠ .ok s') ∧
    (true = true → true = true → baseRec.token_mint = 5 →
      withdraw_funds baseRec true true 5 9 1 true
        = .error .WithdrawerIsNotAnOwner) :=
  c7_non_owner_always_fails baseRec true true 5 9 1 true (by decide)

/-- C7 counterexample: with a supplied mint (6) different from the
record's (5), a withdrawal by the non-owner 9 fails with `IncorrectMint`,
not with `WithdrawerIsNotAnOwner` as the claim states. -/
theorem c7_mint_precedes_counterexample :
    (9 : Nat) ∉ baseRec.owner_addresses ∧
    withdraw_funds baseRec true true 6 9 1 true = .error .IncorrectMint ∧
    SubError.IncorrectMint ≠ SubError.WithdrawerIsNotAnOwner :=
  ⟨by decide, rfl, by decide⟩

/-! ## C8 -/

/-- C8 (confirmed): every successful creation writes a record whose
`withdrawn_amounts` is all zeros with the same length as the owner-address
list, whose `total_paid` and `paid_until` are 0, and whose mint, owner
addresses, owner shares, price and period duration equal the supplied
arguments. -/
theorem c8_create_initial_record (args : CreateSubscriptionArgs)
    (kOk aOk : Bool) (s : SubscriptionData)
    (h : create_subscription args kOk aOk = .ok s) :
    s.token_mint = args.token_mint ∧
    s.owner_addresses = args.owner_addresses ∧
    s.owner_shares = args.owner_shares ∧
    s.withdrawn_amounts = List.replicate args.owner_addresses.length 0 ∧
    s.withdrawn_amounts.length = args.owner_addresses.length ∧
    (∀ w ∈ s.withdrawn_amounts, w = 0) ∧
    s.total_paid = 0 ∧ s.paid_until = 0 ∧
    s.price = args.price ∧ s.period_duration = args.period_duration := by
  rw [create_subscription] at h
  split_ifs at h
  have hs : s = _ := (Except.ok.inj h).symm
  subst hs
  refine ⟨rfl, rfl, rfl, rfl, by simp, ?_, rfl, rfl, rfl, rfl⟩
  intro w hw
  exact List.eq_of_mem_replicate hw

theorem c8_create_initial_record_witness :
    c1s0.token_mint = c1args.token_mint ∧
    c1s0.owner_addresses = c1args.owner_addresses ∧
    c1s0.owner_shares = c1args.owner_shares ∧
    c1s0.withdrawn_amounts = List.replicate c1args.owner_addresses.length 0 ∧
    c1s0.withdrawn_amounts.length = c1args.owner_addresses.length ∧
    (∀ w ∈ c1s0.withdrawn_amounts, w = 0) ∧
    c1s0.total_paid = 0 ∧ c1s0.paid_until = 0 ∧
    c1s0.price = c1args.price ∧ c1s0.period_duration = c1args.period_duration :=
  c8_create_initial_record c1args true true c1s0 rfl

end SolSub
